import Mathlib

/-!
Verification of the serpent-cli project-materialization pipeline.

The Rust sources are shallowly embedded: path values are lists of
components (each component a list of characters), file contents are
character lists or strings, the filesystem is an abstract record of
predicates, and fallible code returns an explicit result type with a
separate constructor for panics.
-/

/-- A path component (one segment of a filesystem path), as a character
list. -/
abbrev Component := List Char

/-- A filesystem path, as a list of components (the model for Rust
`Path`/`PathBuf`; `starts_with`, `strip_prefix` and `join` become list
operations on components). -/
abbrev FsPath := List Component

/-- Model of `toml::Value` restricted to the shapes the CLI inspects:
strings, integers, booleans and tables (association lists, as the
parser guarantees distinct keys). -/
inductive TomlValue where
  | str (s : String)
  | int (n : Int)
  | boolean (b : Bool)
  | table (entries : List (String × TomlValue))

/-- Model of `CliError` (src/error.rs), restricted to the variants the
embedded functions construct.  `TomlContentError` carries the offending
value and the expected shape, exactly as in the source. -/
inductive CliError where
  | FileOrDirectoryNotFound (p : FsPath)
  | PathIsDirectory (p : FsPath)
  | PathIsFile (p : FsPath)
  | RedundantParameter (msg : String)
  | TomlContentError (v : TomlValue) (expected : String)
  | CargoError
  | IoError

/-- Result of running a piece of Rust code that may return `Ok`, return
`Err`, or panic (`unwrap`/`expect`/`unreachable!`).  Panics are kept
distinct from typed errors because several claims are about exactly that
distinction. -/
inductive PResult (α : Type) where
  | ok (a : α)
  | err (e : CliError)
  | panic (msg : String)

/-- `toml::map::Map::remove`: look up a key in a table. -/
def lookupToml (k : String) : List (String × TomlValue) → Option TomlValue
  | [] => none
  | (k0, v) :: rest => if k0 = k then some v else lookupToml k rest

/-- `toml::map::Map::remove`: the table with the first binding of the key
removed. -/
def removeToml (k : String) : List (String × TomlValue) → List (String × TomlValue)
  | [] => []
  | (k0, v) :: rest => if k0 = k then rest else (k0, v) :: removeToml k rest

/-- `read_remap_file` (src/subcommand/tp/transpile.rs, lines 14-43),
starting from the parsed toml value (file reading and toml parsing are
the boundary; the claims under examination concern files that parse).
The source demands a top-level table, then calls
`.remove("dependencies").expect("dependencies not found in remap file")`
-- a panic when the key is absent -- and then demands that the
`dependencies` value is itself a table.  The remaining table entries are
returned as the remap table. -/
def read_remap_file (parsed : TomlValue) :
    PResult (List (String × TomlValue) × List (String × TomlValue)) :=
  match parsed with
  | TomlValue.table t =>
    match lookupToml "dependencies" t with
    | none => PResult.panic "dependencies not found in remap file"
    | some v =>
      match v with
      | TomlValue.table deps => PResult.ok (deps, removeToml "dependencies" t)
      | v => PResult.err (CliError.TomlContentError v "table")
  | v => PResult.err (CliError.TomlContentError v "table")

/-- `toml_into_deps` (src/subcommand/tp/cargo_util.rs, lines 110-117):
each table entry must map to a string version; the first non-string
value aborts the collection with a typed content error.  A
`Dependency::version` pair is modelled as `(name, version)`. -/
def toml_into_deps : List (String × TomlValue) → Except CliError (List (String × String))
  | [] => Except.ok []
  | (k, v) :: rest =>
    match v with
    | TomlValue.str version =>
      match toml_into_deps rest with
      | Except.ok l => Except.ok ((k, version) :: l)
      | Except.error e => Except.error e
    | v => Except.error (CliError.TomlContentError v "String")

/-- The branch taken by manifest creation when it inspects an existing
manifest file. -/
inductive ManifestAction where
  | deletePrevious
  | skipNotice
  | freshWrite
deriving DecidableEq

/-- `create_manifest` (src/subcommand/tp/cargo_util.rs, lines 10-32) as a
transformer on the manifest file slot.  `existing` is the current
content of `Cargo.toml` at the destination (`none` when absent) and
`generated` abstracts the bytes `emit_manifest` produces from the fixed
inputs.  The source logs a skip notice in the `overwrite = false` branch
but then falls through to `emit_manifest` unconditionally, so every
branch ends with the generated bytes on disk. -/
def create_manifest (existing : Option String) (overwrite_previous : Bool)
    (generated : String) : ManifestAction × Option String :=
  match existing, overwrite_previous with
  | some _, true => (ManifestAction.deletePrevious, some generated)
  | some _, false => (ManifestAction.skipNotice, some generated)
  | none, _ => (ManifestAction.freshWrite, some generated)

/-- The dependency table of the manifest written by the local
`emit_manifest` of src/subcommand/tp/transpile.rs (lines 212-233): it
receives only the output path and the two target flags and delegates to
`cargo::ops::init`, which generates a fresh default manifest.  No
dependency information reaches it, so the emitted dependency table is
empty (the empty table models the external `cargo init` default). -/
def emit_manifest_tp_deps (_has_bin_target _has_lib_target : Bool) :
    List (String × String) := []

/-- The dependency table embedded by `emit_manifest` of
src/subcommand/tp/cargo_util.rs (lines 34-107): when a dependency table
is supplied it is converted by `toml_into_deps` and placed in the
manifest verbatim. -/
def emit_manifest_cargo_util_deps (deps : Option (List (String × TomlValue))) :
    Except CliError (List (String × String)) :=
  match deps with
  | some m => toml_into_deps m
  | none => Except.ok []

/-- The manifest dependency table produced by a module transpilation
(`transpile_module`, src/subcommand/tp/transpile.rs, lines 83-191) for a
given parsed remap file.  The function reads the remap file (binding
`deps_and_remaps`, which is never used afterwards) and, when manifest
emission is requested, calls the local `emit_manifest(mod_out_path,
has_bin_target, has_lib_target)` -- the loaded dependencies are
discarded. -/
def transpile_module_manifest_deps (remapParsed : Option TomlValue)
    (has_bin_target has_lib_target : Bool) : PResult (List (String × String)) :=
  match remapParsed with
  | some v =>
    match read_remap_file v with
    | PResult.ok _ => PResult.ok (emit_manifest_tp_deps has_bin_target has_lib_target)
    | PResult.err e => PResult.err e
    | PResult.panic m => PResult.panic m
  | none => PResult.ok (emit_manifest_tp_deps has_bin_target has_lib_target)

/-- Split a character list at its last dot: `revSplitDot l = some (a, b)`
when `l = a ++ dot :: b` and `b` is dot-free; `none` when `l` has no
dot.  Used to model Rust `Path::file_stem`/`extension`. -/
def revSplitDot : List Char → Option (List Char × List Char)
  | [] => none
  | c :: cs =>
    match revSplitDot cs with
    | some (a, b) => some (c :: a, b)
    | none => if c = '.' then some ([], cs) else none

/-- Rust `Path::file_stem`/`extension` on a file-name component: the
portion of the name before (and after) the last dot, except that a
leading dot does not begin an extension (a name such as `.py` is all
stem). -/
def fileStemExt (f : Component) : Component × Option (List Char) :=
  match f with
  | [] => ([], none)
  | c :: rest =>
    match revSplitDot rest with
    | some (a, b) => (c :: a, some b)
    | none => (c :: rest, none)

/-- Rust `PathBuf::with_extension("rs")` on a file-name component: the
stem followed by `.rs` (the old extension, if any, is dropped). -/
def withExtRs (f : Component) : Component :=
  (fileStemExt f).1 ++ ['.', 'r', 's']

/-- Apply a function to the last element of a list (Rust
`with_extension` rewrites only the `file_name`, i.e. the last
component). -/
def mapLast (f : α → α) : List α → List α
  | [] => []
  | [a] => [f a]
  | a :: b :: rest => a :: mapLast f (b :: rest)

/-- Rust `Path::strip_prefix`: remove a leading run of components,
`none` when the path does not start with the prefix. -/
def dropRoot (pre : FsPath) (p : FsPath) : Option FsPath :=
  match pre, p with
  | [], p => some p
  | _ :: _, [] => none
  | a :: pre, b :: p => if a = b then dropRoot pre p else none

/-- `translate` (named `translate_path` here; src/subcommand/tp/transpile.rs, lines 253-264): strip
`from_stem` from `path`, swap the extension of the file name to `.rs`,
and re-root the result under `to_stem ++ ["src"]`.  The source
`debug_assert!`s the prefix condition and unwraps `strip_prefix`; the
model returns `none` outside the asserted precondition. -/
def translate_path (path from_stem to_stem : FsPath) : Option FsPath :=
  (dropRoot from_stem path).map
    (fun relative => to_stem ++ ("src".data :: mapLast withExtRs relative))

/-- Model of `serpent::output::TranspiledFileKind`: the two special
entry kinds matched in `transpile_module` plus the catch-all the
wildcard arm covers. -/
inductive TranspiledFileKind where
  | LibRs
  | MainRs
  | Plain

/-- Rust `PathBuf::set_file_name`: replace the last component (append
when there is none). -/
def set_file_name (p : FsPath) (name : Component) : FsPath :=
  p.dropLast ++ [name]

/-- The output-role classification of `transpile_module`
(src/subcommand/tp/transpile.rs, lines 140-150): a `LibRs` kind forces
the file name `lib.rs`, a `MainRs` kind forces `main.rs`, the wildcard
arm leaves the translated path unchanged. -/
def apply_kind (kind : TranspiledFileKind) (out_path : FsPath) : FsPath :=
  match kind with
  | TranspiledFileKind.LibRs => set_file_name out_path "lib.rs".data
  | TranspiledFileKind.MainRs => set_file_name out_path "main.rs".data
  | TranspiledFileKind.Plain => out_path

/-- Abstract filesystem state: which paths exist, and which of the
existing ones are directories or regular files (Rust `Path::exists`,
`Metadata::is_dir`, `Metadata::is_file`). -/
structure FS where
  existsAt : FsPath → Bool
  isDir : FsPath → Bool
  isFile : FsPath → Bool

/-- `to_path` (src/main.rs, lines 166-174): an existing path, or
`FileOrDirectoryNotFound`. -/
def to_path (fs : FS) (input : FsPath) : Except CliError FsPath :=
  if fs.existsAt input then Except.ok input
  else Except.error (CliError.FileOrDirectoryNotFound input)

/-- Model of `TranspileUnit` (src/main.rs, lines 95-98). -/
inductive TranspileUnit where
  | File (p : FsPath)
  | Module (p : FsPath)

/-- `generate_target` (src/main.rs, lines 118-131): classify an existing
path as a module (directory) or file target; a non-existent path is
`FileOrDirectoryNotFound`; an existing path that is neither a directory
nor a regular file hits `unreachable!()`. -/
def generate_target (fs : FS) (input : FsPath) : PResult TranspileUnit :=
  match to_path fs input with
  | Except.error e => PResult.err e
  | Except.ok path =>
    if fs.isDir path then PResult.ok (TranspileUnit.Module path)
    else if fs.isFile path then PResult.ok (TranspileUnit.File path)
    else PResult.panic "a path that exists is either a file or a directory"

/-- Rust `Path::parent` in the component model: `none` for the empty
path, otherwise the path without its last component. -/
def parentOf (p : FsPath) : Option FsPath :=
  match p with
  | [] => none
  | _ :: _ => some p.dropLast

/-- `detect` (src/subcommand/tp/mod.rs, lines 155-167): look for a file
of the given name inside a directory; a non-directory argument is a
`PathIsFile` error, absence of the file is `none`, not an error. -/
def detect (fs : FS) (look_for : Component) (in_dir : FsPath) :
    Except CliError (Option FsPath) :=
  if fs.isDir in_dir then
    if fs.existsAt (in_dir ++ [look_for]) then Except.ok (some (in_dir ++ [look_for]))
    else Except.ok none
  else Except.error (CliError.PathIsFile in_dir)

/-- The fixed remap-file name `Remap.toml`. -/
def remapName : Component := "Remap.toml".data

/-- The remap-file resolution block of `resolve_args`
(src/subcommand/tp/mod.rs, lines 90-122).  An explicit `--remap-file`
argument is checked for existence and wins outright; otherwise, unless
`--no-remap` is given, the target directory is probed (a file target's
parent, or the module root and then -- evaluated eagerly, as the Rust
`Option::or` argument is -- the module directory's parent); otherwise no
remap file is used. -/
def resolve_remap (fs : FS) (remap_arg : Option FsPath) (no_remap : Bool)
    (target : TranspileUnit) : Except CliError (Option FsPath) :=
  match remap_arg with
  | some path =>
    match to_path fs path with
    | Except.ok p => Except.ok (some p)
    | Except.error e => Except.error e
  | none =>
    if !no_remap then
      match target with
      | TranspileUnit.File fpath =>
        match parentOf fpath with
        | some parent => detect fs remapName parent
        | none => Except.ok none
      | TranspileUnit.Module dirpath =>
        match detect fs remapName dirpath with
        | Except.error e => Except.error e
        | Except.ok first =>
          match
            (match parentOf dirpath with
             | some parent => detect fs remapName parent
             | none => Except.ok none) with
          | Except.error e => Except.error e
          | Except.ok second => Except.ok (first.or second)
    else Except.ok none

/-- The command-line flags of the `transpile` subcommand as resolved by
clap (src/subcommand/tp/mod.rs, lines 16-45).  clap guarantees
`emit-manifest` conflicts with `omit-manifest` and `remap-file`
conflicts with `no-remap`. -/
structure TpArgs where
  input : FsPath
  lines : Bool
  output : Option FsPath
  emit_manifest : Bool
  omit_manifest : Bool
  remap_arg : Option FsPath
  no_remap : Bool

/-- The resolved transpilation configuration (src/subcommand/tp/mod.rs,
lines 143-152). -/
structure TpConfig where
  transpile_unit : TranspileUnit
  line_numbers : Bool
  output : Option TranspileUnit
  create_manifest : Bool
  overwrite_manifest : Bool
  remap_file : Option FsPath

/-- `resolve_args` (src/subcommand/tp/mod.rs, lines 54-137): classify
the input, wrap the output path in the input's kind, derive
`create_manifest` from the manifest flags (the double-flag case is cut
off by clap and modelled as the source's `unreachable!`), reject
manifest creation unless a module is transpiled into a module output,
resolve the remap file, and build the configuration --
`overwrite_manifest` is the literal `true`. -/
def resolve_args (fs : FS) (a : TpArgs) : PResult TpConfig :=
  match generate_target fs a.input with
  | PResult.err e => PResult.err e
  | PResult.panic m => PResult.panic m
  | PResult.ok target =>
    let output := a.output.map (fun out_path =>
      match target with
      | TranspileUnit.File _ => TranspileUnit.File out_path
      | TranspileUnit.Module _ => TranspileUnit.Module out_path)
    if a.emit_manifest ∧ a.omit_manifest then
      PResult.panic "should be eliminated by clap"
    else
      let create_manifest := a.emit_manifest
      if create_manifest then
        match target, output with
        | TranspileUnit.Module _, some (TranspileUnit.Module _) =>
          match resolve_remap fs a.remap_arg a.no_remap target with
          | Except.error e => PResult.err e
          | Except.ok remap_file =>
            PResult.ok
              { transpile_unit := target, line_numbers := a.lines, output,
                create_manifest, overwrite_manifest := true, remap_file }
        | _, _ =>
          PResult.err (CliError.RedundantParameter
            "`omit-manifest` only makes sense when transpiling an input module into an output directory")
      else
        match resolve_remap fs a.remap_arg a.no_remap target with
        | Except.error e => PResult.err e
        | Except.ok remap_file =>
          PResult.ok
            { transpile_unit := target, line_numbers := a.lines, output,
              create_manifest, overwrite_manifest := true, remap_file }

/-- Split a character list at newline characters; the result always has
one chunk more than the number of newlines, and chunks are
newline-free. -/
def splitNl : List Char → List (List Char)
  | [] => [[]]
  | c :: cs =>
    match splitNl cs with
    | [] => [[]]
    | h :: t => if c = '\n' then [] :: h :: t else (c :: h) :: t

/-- Join chunks with single newline characters (no trailing newline), as
`Itertools::join("\n")` does. -/
def joinNl : List (List Char) → List Char
  | [] => []
  | [l] => l
  | l :: ls => l ++ '\n' :: joinNl ls

/-- Remove one trailing carriage return, as the Rust `lines` iterator
does for chunks that were terminated by a newline. -/
def stripCR (l : List Char) : List Char :=
  if l.getLast? = some '\r' then l.dropLast else l

/-- Rust `str::lines`: split at newlines, strip a carriage return from
every chunk that was newline-terminated, and drop the final empty chunk
produced by a trailing newline.  The empty string has no lines. -/
def rustLines (s : List Char) : List (List Char) :=
  if s = [] then []
  else if s.getLast? = some '\n' then ((splitNl s).dropLast).map stripCR
  else
    match (splitNl s).getLast? with
    | some last => ((splitNl s).dropLast).map stripCR ++ [last]
    | none => []

/-- The ten decimal digit characters. -/
def digitChars : List Char := ['0', '1', '2', '3', '4', '5', '6', '7', '8', '9']

/-- The character of one decimal digit. -/
def digitChar (d : Nat) : Char := digitChars.getD d '0'

/-- Decimal digits with an explicit recursion budget (structural, so
that concrete runs reduce inside the kernel). -/
def natDigitsAux : Nat → Nat → List Char
  | 0, _ => []
  | fuel + 1, n =>
    if n < 10 then [digitChar n]
    else natDigitsAux fuel (n / 10) ++ [digitChar (n % 10)]

/-- The decimal digits of a number, most significant first (`n + 1` is
always enough budget since `n / 10 < n`). -/
def natDigits (n : Nat) : List Char := natDigitsAux (n + 1) n

/-- The width `add_line_nbs` computes for the line-number column
(src/subcommand/tp/transpile.rs, lines 196-200): one digit for an empty
input, otherwise the decimal-digit count of the line count.  The source
computes `(count as f64).log10() as usize + 1`; the model uses the
digit count, which equals the exact integer `log10 + 1` (theorem
`natDigits_length_eq_log` below) and agrees with the floating-point
computation on every attainable line count. -/
def numWidth (line_count : Nat) : Nat :=
  if line_count = 0 then 1 else (natDigits line_count).length

/-- Rust `format!` right-alignment to a minimum width: pad with spaces
on the left, never truncate. -/
def padLeft (w : Nat) (s : List Char) : List Char :=
  List.replicate (w - s.length) ' ' ++ s

/-- The numbered lines built by `add_line_nbs`: line `i` (zero-based)
becomes the right-aligned decimal numeral of `i + 1`, one space, then
the line. -/
def numberFrom (w i : Nat) : List (List Char) → List (List Char)
  | [] => []
  | l :: ls => (padLeft w (natDigits (i + 1)) ++ ' ' :: l) :: numberFrom w (i + 1) ls

/-- `add_line_nbs` (src/subcommand/tp/transpile.rs, lines 193-210):
number every line with a right-aligned one-based index of width
`numWidth (line count)` followed by one space, and join the numbered
lines with newlines. -/
def add_line_nbs (s : List Char) : List Char :=
  joinNl (numberFrom (numWidth (rustLines s).length) 0 (rustLines s))

/-- The inverse transform named by the specification: drop the
fixed-width numeric column and the single separator (width + 1
characters) from every line of a numbered output, and rejoin the lines. -/
def strip_line_nbs (t : List Char) : List Char :=
  joinNl ((rustLines t).map (List.drop (numWidth (rustLines t).length + 1)))

/-- A concrete filesystem fixture: a single regular file `f.py` at the
root, used to instantiate universally quantified theorems. -/
def cliFileFS : FS where
  existsAt := fun q => decide (q = ["f.py".data])
  isDir := fun _ => false
  isFile := fun q => decide (q = ["f.py".data])

/-- A concrete filesystem fixture: a module directory `a/m` whose parent
`a` holds a `Remap.toml`, used to instantiate universally quantified
theorems. -/
def remapParentFS : FS where
  existsAt := fun q =>
    decide (q = ["a".data, "m".data] ∨ q = ["a".data] ∨ q = ["a".data, remapName])
  isDir := fun q => decide (q = ["a".data, "m".data] ∨ q = ["a".data])
  isFile := fun q => decide (q = ["a".data, remapName])

/-- Claim C1: the specification asserts that with a remap file mapping
`foo` to `"1.0"` and manifest emission requested, the synthesized
manifest's dependency table is exactly `foo -> "1.0"`.  The module
pipeline instead discards the loaded dependencies: its local
`emit_manifest(path, has_bin, has_lib)` receives none of them, so the
emitted table is empty.  The unused `cargo_util::emit_manifest`, by
contrast, embeds exactly the loaded entries, confirming the stated
behavior as the intent. -/
theorem c1_manifest_deps_dropped :
    transpile_module_manifest_deps
        (some (TomlValue.table
          [("dependencies", TomlValue.table [("foo", TomlValue.str "1.0")])]))
        true false
      = PResult.ok []
    ∧ ([] : List (String × String)) ≠ [("foo", "1.0")]
    ∧ emit_manifest_cargo_util_deps (some [("foo", TomlValue.str "1.0")])
      = Except.ok [("foo", "1.0")] :=
  ⟨rfl, by decide, rfl⟩

/-- Claim C2: with an existing manifest and the overwrite flag false,
`create_manifest` takes the skip-notice branch but still rewrites the
manifest with regenerated content, so the existing bytes are NOT left
unchanged; with the overwrite flag true it deletes and regenerates as
stated. -/
theorem c2_manifest_overwrite_behavior :
    create_manifest (some "old") false "new" = (ManifestAction.skipNotice, some "new")
    ∧ (create_manifest (some "old") false "new").2 ≠ some "old"
    ∧ create_manifest (some "old") true "new"
      = (ManifestAction.deletePrevious, some "new") :=
  ⟨rfl, by decide, rfl⟩

/-- Claim C3, counterexample: a remap file that parses as a table but
lacks the top-level `dependencies` key makes the loader panic (the
source's `.expect`), not return a typed content error as claimed. -/
theorem c3_missing_deps_key_panics :
    read_remap_file (TomlValue.table [("numpy-remap", TomlValue.str "np")])
      = PResult.panic "dependencies not found in remap file" := rfl

/-- Claim C4, counterexample: `--omit-manifest` together with a file
(non-module) input does NOT produce a `RedundantParameter` error;
argument resolution succeeds with manifest creation disabled, because
`omit-manifest` makes `create_manifest` false and the compatibility
check only runs when it is true. -/
theorem c4_omit_manifest_file_ok :
    resolve_args cliFileFS
        { input := ["f.py".data], lines := false, output := none,
          emit_manifest := false, omit_manifest := true,
          remap_arg := none, no_remap := true }
      = PResult.ok
          { transpile_unit := TranspileUnit.File ["f.py".data],
            line_numbers := false, output := none, create_manifest := false,
            overwrite_manifest := true, remap_file := none } := rfl

/-- Claim C5, counterexample: `translate` is not injective on the paths
under the source root: two sources that differ only in their extension
collide on the same output path. -/
theorem c5_translate_not_injective :
    translate_path ["m".data, "a.py".data] ["m".data] ["o".data]
      = some ["o".data, "src".data, "a.rs".data]
    ∧ translate_path ["m".data, "a.txt".data] ["m".data] ["o".data]
      = some ["o".data, "src".data, "a.rs".data]
    ∧ (["m".data, "a.py".data] : FsPath) ≠ ["m".data, "a.txt".data] :=
  ⟨rfl, rfl, by decide⟩

/-- Claim C6, counterexample: the line-numbering transform is not
reversible for every non-empty content: a content with a trailing
newline loses it, because the numbered lines are re-joined without a
terminator. -/
theorem c6_trailing_newline_lost :
    add_line_nbs "a\n".data = "1 a".data
    ∧ strip_line_nbs (add_line_nbs "a\n".data) = "a".data
    ∧ "a".data ≠ "a\n".data :=
  ⟨by decide, by decide, by decide⟩

/-- Claim C9: the output-role classifier only rewrites the file-name
component of the translated path: the directory part is preserved for
every kind, `LibRs` forces the file name `lib.rs`, `MainRs` forces
`main.rs`, and the wildcard kind leaves the path untouched. -/
theorem c9_kind_only_renames_file_name :
    ∀ (kind : TranspiledFileKind) (out_path : FsPath),
      (apply_kind kind out_path).dropLast = out_path.dropLast
      ∧ (apply_kind TranspiledFileKind.LibRs out_path).getLast? = some "lib.rs".data
      ∧ (apply_kind TranspiledFileKind.MainRs out_path).getLast? = some "main.rs".data
      ∧ apply_kind TranspiledFileKind.Plain out_path = out_path := by
  intro kind out_path
  refine ⟨?_, ?_, ?_, rfl⟩
  · cases kind <;> simp [apply_kind, set_file_name]
  · simp [apply_kind, set_file_name]
  · simp [apply_kind, set_file_name]

theorem resolve_args_ok_shape (fs : FS) (a : TpArgs) (cfg : TpConfig)
    (h : resolve_args fs a = PResult.ok cfg) :
    cfg.overwrite_manifest = true ∧ cfg.create_manifest = a.emit_manifest := by
  unfold resolve_args at h
  cases hg : generate_target fs a.input with
  | err e => rw [hg] at h; exact PResult.noConfusion h
  | panic m => rw [hg] at h; exact PResult.noConfusion h
  | ok target =>
    rw [hg] at h
    dsimp only at h
    by_cases hb : (a.emit_manifest = true ∧ a.omit_manifest = true)
    · rw [if_pos hb] at h; exact PResult.noConfusion h
    · rw [if_neg hb] at h
      cases hem : a.emit_manifest <;> rw [hem] at h
      · simp only [Bool.false_eq_true, if_false] at h
        cases hr : resolve_remap fs a.remap_arg a.no_remap target <;> rw [hr] at h
        · exact PResult.noConfusion h
        · injection h with h2
          subst h2
          exact ⟨rfl, rfl⟩
      · simp only [if_true] at h
        cases target with
        | File f =>
          cases ho : a.output <;> rw [ho] at h <;> simp only [Option.map] at h <;>
            exact PResult.noConfusion h
        | Module d =>
          cases ho : a.output <;> rw [ho] at h <;> simp only [Option.map] at h
          · exact PResult.noConfusion h
          · cases hr : resolve_remap fs a.remap_arg a.no_remap (TranspileUnit.Module d) <;>
              rw [hr] at h
            · exact PResult.noConfusion h
            · injection h with h2
              subst h2
              exact ⟨rfl, rfl⟩

/-- Claim C10: every configuration produced by `resolve_args` has
`overwrite_manifest = true` (the field is assigned the literal `true`),
so manifest creation run with that flag can never take the
skip-because-overwrite-is-false branch. -/
theorem c10_overwrite_manifest_always_true :
    ∀ (fs : FS) (a : TpArgs) (cfg : TpConfig),
      resolve_args fs a = PResult.ok cfg →
      cfg.overwrite_manifest = true
      ∧ ∀ existing generated,
          (create_manifest existing cfg.overwrite_manifest generated).1
            ≠ ManifestAction.skipNotice := by
  intro fs a cfg h
  obtain ⟨hov, _⟩ := resolve_args_ok_shape fs a cfg h
  refine ⟨hov, ?_⟩
  intro existing generated
  rw [hov]
  cases existing <;> simp [create_manifest]

/-- Witness for claim C10 at a concrete filesystem and argument set. -/
theorem c10_overwrite_manifest_always_true_witness :
    ({ transpile_unit := TranspileUnit.File ["f.py".data], line_numbers := false,
       output := none, create_manifest := false, overwrite_manifest := true,
       remap_file := none } : TpConfig).overwrite_manifest = true
    ∧ ∀ existing generated,
        (create_manifest existing
            ({ transpile_unit := TranspileUnit.File ["f.py".data], line_numbers := false,
               output := none, create_manifest := false, overwrite_manifest := true,
               remap_file := none } : TpConfig).overwrite_manifest generated).1
          ≠ ManifestAction.skipNotice :=
  c10_overwrite_manifest_always_true cliFileFS
    { input := ["f.py".data], lines := false, output := none,
      emit_manifest := false, omit_manifest := false,
      remap_arg := none, no_remap := true } _ rfl

/-- Claim C8: the input classifier fails with the not-found error
exactly when the path does not exist; an existing directory is
classified as a module target and an existing regular file as a file
target; and the result depends only on existence and filesystem kind of
the path. -/
theorem c8_generate_target_classifies :
    ∀ (fs : FS) (p : FsPath),
      ¬(fs.isDir p = true ∧ fs.isFile p = true) →
      ((generate_target fs p = PResult.err (CliError.FileOrDirectoryNotFound p))
        ↔ fs.existsAt p = false)
      ∧ (fs.existsAt p = true → fs.isDir p = true →
          generate_target fs p = PResult.ok (TranspileUnit.Module p))
      ∧ (fs.existsAt p = true → fs.isFile p = true →
          generate_target fs p = PResult.ok (TranspileUnit.File p))
      ∧ (∀ fs2 : FS, fs.existsAt p = fs2.existsAt p → fs.isDir p = fs2.isDir p →
          fs.isFile p = fs2.isFile p → generate_target fs p = generate_target fs2 p) := by
  intro fs p hnb
  refine ⟨?_, ?_, ?_, ?_⟩
  · cases he : fs.existsAt p <;> cases hd : fs.isDir p <;> cases hf : fs.isFile p <;>
      simp_all [generate_target, to_path]
  · cases he : fs.existsAt p <;> cases hd : fs.isDir p <;> cases hf : fs.isFile p <;>
      simp_all [generate_target, to_path]
  · cases he : fs.existsAt p <;> cases hd : fs.isDir p <;> cases hf : fs.isFile p <;>
      simp_all [generate_target, to_path]
  · intro fs2 h1 h2 h3
    unfold generate_target to_path
    rw [h1]
    cases he2 : fs2.existsAt p
    · simp
    · simp only [if_true]
      rw [h2, h3]

/-- Witness for claim C8 at a concrete filesystem holding one regular
file. -/
theorem c8_generate_target_classifies_witness :
    generate_target cliFileFS ["f.py".data]
      = PResult.ok (TranspileUnit.File ["f.py".data]) :=
  ((c8_generate_target_classifies cliFileFS ["f.py".data] (by decide)).2.2.1) rfl rfl

/-- Claim C4 (amended): combining `--emit-manifest` (not
`--omit-manifest`) with a file input makes argument resolution fail
with the `RedundantParameter` error before any transpilation work,
while `--omit-manifest` with a file input is accepted and merely
disables manifest creation. -/
theorem c4_emit_manifest_file_redundant :
    (∀ (fs : FS) (a : TpArgs) (f : FsPath),
      a.emit_manifest = true → a.omit_manifest = false →
      generate_target fs a.input = PResult.ok (TranspileUnit.File f) →
      resolve_args fs a = PResult.err (CliError.RedundantParameter
        "`omit-manifest` only makes sense when transpiling an input module into an output directory"))
    ∧ (∀ (fs : FS) (a : TpArgs) (cfg : TpConfig),
      a.omit_manifest = true → a.emit_manifest = false →
      resolve_args fs a = PResult.ok cfg → cfg.create_manifest = false) := by
  constructor
  · intro fs a f hem hom hg
    unfold resolve_args
    rw [hg]
    dsimp only
    rw [if_neg (by simp [hom])]
    rw [hem]
    cases a.output <;> rfl
  · intro fs a cfg hom hem h
    have h2 := (resolve_args_ok_shape fs a cfg h).2
    rw [h2, hem]

/-- Witness for claim C4 at a concrete filesystem and argument set. -/
theorem c4_emit_manifest_file_redundant_witness :
    resolve_args cliFileFS
        { input := ["f.py".data], lines := false, output := none,
          emit_manifest := true, omit_manifest := false,
          remap_arg := none, no_remap := true }
      = PResult.err (CliError.RedundantParameter
          "`omit-manifest` only makes sense when transpiling an input module into an output directory") :=
  c4_emit_manifest_file_redundant.1 cliFileFS _ ["f.py".data] rfl rfl rfl

/-- Claim C3 (amended): a remap file whose parsed table lacks the
top-level `dependencies` key makes the loader PANIC (the source's
`.expect`), not return a typed error; a `dependencies` value that is
not a table yields the typed content error carrying the offending value
and the expected shape "table"; and a dependency value that is not a
simple string yields the typed content error carrying the offending
value and the expected shape "String" in the `toml_into_deps` helper
(which the current pipeline never reaches). -/
theorem c3_remap_loader_errors :
    (∀ (t : List (String × TomlValue)),
      lookupToml "dependencies" t = none →
      read_remap_file (TomlValue.table t)
        = PResult.panic "dependencies not found in remap file")
    ∧ (∀ (t : List (String × TomlValue)) (v : TomlValue),
      lookupToml "dependencies" t = some v → (∀ d, v ≠ TomlValue.table d) →
      read_remap_file (TomlValue.table t)
        = PResult.err (CliError.TomlContentError v "table"))
    ∧ (∀ (m : List (String × TomlValue)) (e : CliError),
      toml_into_deps m = Except.error e →
      ∃ v k, e = CliError.TomlContentError v "String" ∧ (k, v) ∈ m
        ∧ ∀ s, v ≠ TomlValue.str s)
    ∧ (∀ (m : List (String × TomlValue)) (k : String) (v : TomlValue),
      (k, v) ∈ m → (∀ s, v ≠ TomlValue.str s) →
      ∃ e, toml_into_deps m = Except.error e) := by
  refine ⟨?_, ?_, ?_, ?_⟩
  · intro t ht
    simp [read_remap_file, ht]
  · intro t v ht hv
    cases v with
    | table d => exact absurd rfl (hv d)
    | str s => simp [read_remap_file, ht]
    | int n => simp [read_remap_file, ht]
    | boolean b => simp [read_remap_file, ht]
  · intro m
    induction m with
    | nil => intro e h; simp [toml_into_deps] at h
    | cons hd rest ih =>
      obtain ⟨k0, v0⟩ := hd
      intro e h
      cases v0 with
      | str s0 =>
        simp only [toml_into_deps] at h
        cases hr : toml_into_deps rest with
        | ok l => rw [hr] at h; exact Except.noConfusion h
        | error e2 =>
          rw [hr] at h
          injection h with h2
          subst h2
          obtain ⟨v, k, hev, hmem, hns⟩ := ih e2 hr
          exact ⟨v, k, hev, List.mem_cons_of_mem _ hmem, hns⟩
      | int n =>
        simp only [toml_into_deps] at h
        injection h with h2
        subst h2
        exact ⟨TomlValue.int n, k0, rfl, List.mem_cons_self _ _,
          fun s hs => TomlValue.noConfusion hs⟩
      | boolean b =>
        simp only [toml_into_deps] at h
        injection h with h2
        subst h2
        exact ⟨TomlValue.boolean b, k0, rfl, List.mem_cons_self _ _,
          fun s hs => TomlValue.noConfusion hs⟩
      | table d =>
        simp only [toml_into_deps] at h
        injection h with h2
        subst h2
        exact ⟨TomlValue.table d, k0, rfl, List.mem_cons_self _ _,
          fun s hs => TomlValue.noConfusion hs⟩
  · intro m k v
    induction m with
    | nil => intro hm hv; simp at hm
    | cons hd rest ih =>
      obtain ⟨k0, v0⟩ := hd
      intro hm hv
      rcases List.mem_cons.mp hm with heq | hmem
      · injection heq with hk hv0
        cases v0 with
        | str s0 => exact absurd hv0 (hv s0)
        | int n => exact ⟨_, rfl⟩
        | boolean b => exact ⟨_, rfl⟩
        | table d => exact ⟨_, rfl⟩
      · obtain ⟨e, he⟩ := ih hmem hv
        cases v0 with
        | str s0 => exact ⟨e, by simp [toml_into_deps, he]⟩
        | int n => exact ⟨_, rfl⟩
        | boolean b => exact ⟨_, rfl⟩
        | table d => exact ⟨_, rfl⟩

/-- Witness for claim C3 at concrete malformed remap tables. -/
theorem c3_remap_loader_errors_witness :
    read_remap_file (TomlValue.table [("x", TomlValue.boolean true)])
      = PResult.panic "dependencies not found in remap file"
    ∧ read_remap_file (TomlValue.table [("dependencies", TomlValue.int 1)])
      = PResult.err (CliError.TomlContentError (TomlValue.int 1) "table")
    ∧ ∃ e, toml_into_deps [("foo", TomlValue.int 7)] = Except.error e :=
  ⟨c3_remap_loader_errors.1 _ rfl,
   c3_remap_loader_errors.2.1 _ _ rfl (fun _ h => TomlValue.noConfusion h),
   c3_remap_loader_errors.2.2.2 _ "foo" (TomlValue.int 7)
     (List.mem_singleton.mpr rfl) (fun _ h => TomlValue.noConfusion h)⟩

/-- Claim C7: remap-file resolution is the deterministic cascade:
an explicit remap path wins outright and fails if it does not exist;
with `--no-remap` the result is no remap file regardless of the
filesystem; otherwise a module target probes its own root first and its
parent only as a fallback, a file target probes its parent directory,
and finding nothing is `none`, not an error. -/
theorem c7_remap_detection_order :
    ∀ (fs : FS) (remap_arg : Option FsPath) (no_remap : Bool) (target : TranspileUnit),
      (∀ p, remap_arg = some p →
        resolve_remap fs remap_arg no_remap target =
          (if fs.existsAt p then Except.ok (some p)
           else Except.error (CliError.FileOrDirectoryNotFound p)))
      ∧ (remap_arg = none → no_remap = true →
          resolve_remap fs none true target = Except.ok none)
      ∧ (∀ d pd, remap_arg = none → no_remap = false →
          target = TranspileUnit.Module d → parentOf d = some pd →
          fs.isDir d = true → fs.isDir pd = true →
          resolve_remap fs none false target =
            Except.ok
              (if fs.existsAt (d ++ [remapName]) then some (d ++ [remapName])
               else if fs.existsAt (pd ++ [remapName]) then some (pd ++ [remapName])
               else none))
      ∧ (∀ f pf, remap_arg = none → no_remap = false →
          target = TranspileUnit.File f → parentOf f = some pf →
          fs.isDir pf = true →
          resolve_remap fs none false target =
            Except.ok
              (if fs.existsAt (pf ++ [remapName]) then some (pf ++ [remapName])
               else none))
      ∧ (∀ f, remap_arg = none → no_remap = false →
          target = TranspileUnit.File f → parentOf f = none →
          resolve_remap fs none false target = Except.ok none) := by
  intro fs remap_arg no_remap target
  refine ⟨?_, ?_, ?_, ?_, ?_⟩
  · intro p hp
    subst hp
    cases he : fs.existsAt p <;> simp [resolve_remap, to_path, he]
  · intro h1 _
    rfl
  · intro d pd _ _ htgt hpd hd hpdd
    subst htgt
    cases h1 : fs.existsAt (d ++ [remapName]) <;>
      cases h2 : fs.existsAt (pd ++ [remapName]) <;>
      simp [resolve_remap, detect, hpd, hd, hpdd, h1, h2, Option.or]
  · intro f pf _ _ htgt hpf hdir
    subst htgt
    cases h1 : fs.existsAt (pf ++ [remapName]) <;>
      simp [resolve_remap, detect, hpf, hdir, h1]
  · intro f _ _ htgt hpf
    subst htgt
    simp [resolve_remap, hpf]

/-- Witness for claim C7: a module `a/m` with no `Remap.toml` of its own
whose parent directory `a` holds one; the parent's file is found. -/
theorem c7_remap_detection_order_witness :
    resolve_remap remapParentFS none false (TranspileUnit.Module ["a".data, "m".data])
      = Except.ok (some (["a".data] ++ [remapName])) := by
  have h := (c7_remap_detection_order remapParentFS none false
      (TranspileUnit.Module ["a".data, "m".data])).2.2.1
      ["a".data, "m".data] ["a".data] rfl rfl rfl rfl (by decide) (by decide)
  exact h

theorem dropRoot_append (r rel : FsPath) : dropRoot r (r ++ rel) = some rel := by
  induction r with
  | nil => rfl
  | cons a r ih => simp [dropRoot, ih]

theorem revSplitDot_no_dot (l : List Char) (h : '.' ∉ l) : revSplitDot l = none := by
  induction l with
  | nil => rfl
  | cons c cs ih =>
    simp only [revSplitDot]
    rw [ih (fun hm => h (List.mem_cons_of_mem _ hm))]
    have hc : c ≠ '.' := fun hc => h (hc ▸ List.mem_cons_self _ _)
    simp [hc]

theorem revSplitDot_append_py (cs : List Char) :
    revSplitDot (cs ++ ['.', 'p', 'y']) = some (cs, ['p', 'y']) := by
  induction cs with
  | nil => rfl
  | cons c cs ih => simp [revSplitDot, ih]

theorem withExtRs_py (stem : List Char) (h : stem ≠ []) :
    withExtRs (stem ++ ['.', 'p', 'y']) = stem ++ ['.', 'r', 's'] := by
  cases stem with
  | nil => exact absurd rfl h
  | cons c s0 =>
    simp only [withExtRs, fileStemExt, List.cons_append]
    rw [revSplitDot_append_py s0]
    rfl

theorem mapLast_concat (f : α → α) (l : List α) (a : α) :
    mapLast f (l ++ [a]) = l ++ [f a] := by
  induction l with
  | nil => rfl
  | cons x l ih =>
    cases l with
    | nil => rfl
    | cons y l2 =>
      show x :: mapLast f ((y :: l2) ++ [a]) = x :: ((y :: l2) ++ [f a])
      rw [ih]

/-- Claim C5 (amended): on inputs under the source root whose file name
is a python source (a nonempty stem followed by `.py`), `translate`
produces an output rooted at the destination (prefixed by `r2`), whose
file name ends in `.rs`, and is injective: equal outputs force equal
inputs.  (Unrestricted, the function is not injective -- see the
counterexample -- because distinct extensions collide.) -/
theorem c5_translate_py_sources :
    ∀ (r1 r2 d1 d2 : FsPath) (s1 s2 : Component),
      s1 ≠ [] → s2 ≠ [] →
      (∃ out,
        translate_path (r1 ++ (d1 ++ [s1 ++ ['.', 'p', 'y']])) r1 r2 = some out
        ∧ (∃ t, out = r2 ++ t)
        ∧ (∃ c, out.getLast? = some c ∧ ∃ pre, c = pre ++ ['.', 'r', 's']))
      ∧ (translate_path (r1 ++ (d1 ++ [s1 ++ ['.', 'p', 'y']])) r1 r2
            = translate_path (r1 ++ (d2 ++ [s2 ++ ['.', 'p', 'y']])) r1 r2 →
          r1 ++ (d1 ++ [s1 ++ ['.', 'p', 'y']]) = r1 ++ (d2 ++ [s2 ++ ['.', 'p', 'y']])) := by
  intro r1 r2 d1 d2 s1 s2 h1 h2
  have key : ∀ (d : FsPath) (s0 : Component), s0 ≠ [] →
      translate_path (r1 ++ (d ++ [s0 ++ ['.', 'p', 'y']])) r1 r2
        = some (r2 ++ ("src".data :: (d ++ [s0 ++ ['.', 'r', 's']]))) := by
    intro d s0 hs0
    unfold translate_path
    rw [dropRoot_append]
    rw [Option.map_some']
    rw [mapLast_concat, withExtRs_py s0 hs0]
  refine ⟨⟨r2 ++ ("src".data :: (d1 ++ [s1 ++ ['.', 'r', 's']])), key d1 s1 h1,
      ⟨_, rfl⟩, ⟨s1 ++ ['.', 'r', 's'], ?_, s1, rfl⟩⟩, ?_⟩
  · have hsplit : r2 ++ ("src".data :: (d1 ++ [s1 ++ ['.', 'r', 's']]))
        = (r2 ++ "src".data :: d1) ++ [s1 ++ ['.', 'r', 's']] := by
      simp
    rw [hsplit, List.getLast?_concat]
  · intro heq
    rw [key d1 s1 h1, key d2 s2 h2] at heq
    injection heq with h3
    have h4 := List.append_cancel_left h3
    injection h4 with _ h5
    obtain ⟨hd, hx⟩ := List.append_inj' h5 rfl
    injection hx with hx2
    have hs := List.append_cancel_right hx2
    rw [hd, hs]

/-- Witness for claim C5 at the concrete source `m/a.py` translated
into `o`. -/
theorem c5_translate_py_sources_witness :
    ∃ out,
      translate_path (["m".data] ++ ([] ++ ["a".data ++ ['.', 'p', 'y']]))
          ["m".data] ["o".data] = some out
      ∧ (∃ t, out = ["o".data] ++ t)
      ∧ (∃ c, out.getLast? = some c ∧ ∃ pre, c = pre ++ ['.', 'r', 's']) :=
  (c5_translate_py_sources ["m".data] ["o".data] [] [] "a".data "a".data
    (by decide) (by decide)).1

theorem splitNl_ne_nil (s : List Char) : splitNl s ≠ [] := by
  cases s with
  | nil => simp [splitNl]
  | cons c cs =>
    simp only [splitNl]
    cases h : splitNl cs with
    | nil => simp
    | cons hd t =>
      dsimp only
      by_cases hc : c = '\n'
      · rw [if_pos hc]; simp
      · rw [if_neg hc]; simp

theorem splitNl_of_no_nl (l : List Char) (h : '\n' ∉ l) : splitNl l = [l] := by
  induction l with
  | nil => rfl
  | cons c cs ih =>
    have hc : c ≠ '\n' := fun hc => h (hc ▸ List.mem_cons_self _ _)
    simp only [splitNl]
    rw [ih (fun hm => h (List.mem_cons_of_mem _ hm))]
    simp [hc]

theorem splitNl_append_nl (l r : List Char) (h : '\n' ∉ l) :
    splitNl (l ++ '\n' :: r) = l :: splitNl r := by
  induction l with
  | nil =>
    simp only [List.nil_append, splitNl]
    cases hr : splitNl r with
    | nil => exact absurd hr (splitNl_ne_nil r)
    | cons hd t => simp
  | cons c cs ih =>
    have hc : c ≠ '\n' := fun hc => h (hc ▸ List.mem_cons_self _ _)
    simp only [List.cons_append, splitNl, List.append_eq]
    rw [ih (fun hm => h (List.mem_cons_of_mem _ hm))]
    simp [hc]

theorem joinNl_cons_of_ne_nil (l : List Char) (rest : List (List Char))
    (h : rest ≠ []) : joinNl (l :: rest) = l ++ '\n' :: joinNl rest := by
  cases rest with
  | nil => exact absurd rfl h
  | cons l2 t => rfl

theorem joinNl_splitNl (s : List Char) : joinNl (splitNl s) = s := by
  induction s with
  | nil => rfl
  | cons c cs ih =>
    simp only [splitNl]
    cases h : splitNl cs with
    | nil => exact absurd h (splitNl_ne_nil cs)
    | cons hd t =>
      rw [h] at ih
      dsimp only
      by_cases hc : c = '\n'
      · subst hc
        rw [if_pos rfl, joinNl_cons_of_ne_nil _ _ (by simp)]
        rw [List.nil_append, ih]
      · rw [if_neg hc]
        cases t with
        | nil => simpa [joinNl] using congrArg (c :: ·) ih
        | cons t0 t1 =>
          rw [joinNl_cons_of_ne_nil _ _ (by simp)] at ih
          rw [joinNl_cons_of_ne_nil _ _ (by simp)]
          rw [List.cons_append, ih]

theorem splitNl_joinNl (N : List (List Char)) (hne : N ≠ [])
    (hnl : ∀ l ∈ N, '\n' ∉ l) : splitNl (joinNl N) = N := by
  induction N with
  | nil => exact absurd rfl hne
  | cons l rest ih =>
    cases rest with
    | nil =>
      show splitNl (joinNl [l]) = [l]
      exact splitNl_of_no_nl l (hnl l (List.mem_cons_self _ _))
    | cons l2 t =>
      rw [joinNl_cons_of_ne_nil _ _ (by simp)]
      rw [splitNl_append_nl _ _ (hnl l (List.mem_cons_self _ _))]
      rw [ih (by simp) (fun x hx => hnl x (List.mem_cons_of_mem _ hx))]

theorem mem_of_mem_splitNl (s : List Char) :
    ∀ l ∈ splitNl s, ∀ c ∈ l, c ∈ s := by
  induction s with
  | nil =>
    intro l hl c hc
    simp [splitNl] at hl
    subst hl
    simp at hc
  | cons a cs ih =>
    intro l hl c hc
    simp only [splitNl] at hl
    cases h : splitNl cs with
    | nil => exact absurd h (splitNl_ne_nil cs)
    | cons hd t =>
      rw [h] at hl
      dsimp only at hl
      by_cases ha : a = '\n'
      · rw [if_pos ha] at hl
        rcases List.mem_cons.mp hl with rfl | hl2
        · simp at hc
        · exact List.mem_cons_of_mem _ (ih l (h ▸ hl2) c hc)
      · rw [if_neg ha] at hl
        rcases List.mem_cons.mp hl with rfl | hl2
        · rcases List.mem_cons.mp hc with rfl | hc2
          · exact List.mem_cons_self _ _
          · exact List.mem_cons_of_mem _
              (ih hd (h ▸ List.mem_cons_self _ _) c hc2)
        · exact List.mem_cons_of_mem _
            (ih l (h ▸ List.mem_cons_of_mem _ hl2) c hc)

theorem no_nl_of_mem_splitNl (s : List Char) :
    ∀ l ∈ splitNl s, '\n' ∉ l := by
  induction s with
  | nil =>
    intro l hl
    simp [splitNl] at hl
    subst hl
    simp
  | cons a cs ih =>
    intro l hl
    simp only [splitNl] at hl
    cases h : splitNl cs with
    | nil => exact absurd h (splitNl_ne_nil cs)
    | cons hd t =>
      rw [h] at hl
      dsimp only at hl
      by_cases ha : a = '\n'
      · rw [if_pos ha] at hl
        rcases List.mem_cons.mp hl with rfl | hl2
        · simp
        · exact ih l (h ▸ hl2)
      · rw [if_neg ha] at hl
        rcases List.mem_cons.mp hl with rfl | hl2
        · intro hmem
          rcases List.mem_cons.mp hmem with heq | hmem2
          · exact ha heq.symm
          · exact ih hd (h ▸ List.mem_cons_self _ _) hmem2
        · exact ih l (h ▸ List.mem_cons_of_mem _ hl2)

theorem mem_joinNl (N : List (List Char)) :
    ∀ c ∈ joinNl N, c = '\n' ∨ ∃ l ∈ N, c ∈ l := by
  induction N with
  | nil => intro c hc; simp [joinNl] at hc
  | cons l rest ih =>
    intro c hc
    cases rest with
    | nil =>
      right
      exact ⟨l, List.mem_cons_self _ _, hc⟩
    | cons l2 t =>
      rw [joinNl_cons_of_ne_nil _ _ (by simp)] at hc
      rcases List.mem_append.mp hc with hcl | hcr
      · exact Or.inr ⟨l, List.mem_cons_self _ _, hcl⟩
      · rcases List.mem_cons.mp hcr with rfl | hcj
        · exact Or.inl rfl
        · rcases ih c hcj with hnl | ⟨l3, hl3, hc3⟩
          · exact Or.inl hnl
          · exact Or.inr ⟨l3, List.mem_cons_of_mem _ hl3, hc3⟩

theorem joinNl_ne_nil (N : List (List Char)) (hne : N ≠ [])
    (hmem : ∀ l ∈ N, l ≠ []) : joinNl N ≠ [] := by
  cases N with
  | nil => exact absurd rfl hne
  | cons l rest =>
    cases rest with
    | nil => exact hmem l (List.mem_cons_self _ _)
    | cons l2 t =>
      rw [joinNl_cons_of_ne_nil _ _ (by simp)]
      simp

theorem joinNl_getLast?_ne_nl (N : List (List Char)) (hne : N ≠ [])
    (hmem : ∀ l ∈ N, l ≠ []) (hnl : ∀ l ∈ N, '\n' ∉ l) :
    (joinNl N).getLast? ≠ some '\n' := by
  induction N with
  | nil => exact absurd rfl hne
  | cons l rest ih =>
    cases rest with
    | nil =>
      show (joinNl [l]).getLast? ≠ some '\n'
      intro h
      exact hnl l (List.mem_cons_self _ _) (List.mem_of_mem_getLast? h)
    | cons l2 t =>
      rw [joinNl_cons_of_ne_nil _ _ (by simp)]
      have hj : joinNl (l2 :: t) ≠ [] :=
        joinNl_ne_nil _ (by simp) (fun x hx => hmem x (List.mem_cons_of_mem _ hx))
      rw [List.getLast?_append]
      cases hjl : joinNl (l2 :: t) with
      | nil => exact absurd hjl hj
      | cons j0 j1 =>
        have hrec := ih (by simp) (fun x hx => hmem x (List.mem_cons_of_mem _ hx))
          (fun x hx => hnl x (List.mem_cons_of_mem _ hx))
        rw [hjl] at hrec
        intro hcon
        apply hrec
        have : ('\n' :: j0 :: j1).getLast? = (j0 :: j1).getLast? := by
          simp [List.getLast?_cons_cons]
        rw [this] at hcon
        exact hcon

theorem digitChar_mem (d : Nat) : digitChar d ∈ digitChars := by
  unfold digitChar
  rcases Nat.lt_or_ge d digitChars.length with h | h
  · rw [List.getD_eq_getElem _ _ h]
    exact List.getElem_mem h
  · rw [List.getD_eq_default _ _ h]
    decide

theorem natDigitsAux_mem (fuel n : Nat) :
    ∀ c ∈ natDigitsAux fuel n, c ∈ digitChars := by
  induction fuel generalizing n with
  | zero => intro c hc; simp [natDigitsAux] at hc
  | succ f ih =>
    intro c hc
    simp only [natDigitsAux] at hc
    by_cases h : n < 10
    · rw [if_pos h] at hc
      rcases List.mem_singleton.mp hc with rfl
      exact digitChar_mem n
    · rw [if_neg h] at hc
      rcases List.mem_append.mp hc with h1 | h2
      · exact ih (n / 10) c h1
      · rcases List.mem_singleton.mp h2 with rfl
        exact digitChar_mem (n % 10)

theorem digitChars_ne_nl_cr {c : Char} (h : c ∈ digitChars) :
    c ≠ '\n' ∧ c ≠ '\r' := by
  fin_cases h <;> exact ⟨by decide, by decide⟩

theorem natDigitsAux_length (fuel n : Nat) (h : n < fuel) :
    (natDigitsAux fuel n).length = Nat.log 10 n + 1 := by
  induction fuel generalizing n with
  | zero => omega
  | succ f ih =>
    simp only [natDigitsAux]
    by_cases h10 : n < 10
    · rw [if_pos h10]
      have : Nat.log 10 n = 0 := Nat.log_eq_zero_iff.mpr (Or.inl h10)
      simp [this]
    · rw [if_neg h10]
      have hdiv : n / 10 < n := Nat.div_lt_self (by omega) (by omega)
      have hlen := ih (n / 10) (by omega)
      have hlog : Nat.log 10 (n / 10) = Nat.log 10 n - 1 := Nat.log_div_base 10 n
      have hpos : 0 < Nat.log 10 n := Nat.log_pos (by omega) (by omega)
      simp only [List.length_append, hlen, List.length_singleton]
      omega

theorem natDigits_length_eq_log (n : Nat) :
    (natDigits n).length = Nat.log 10 n + 1 :=
  natDigitsAux_length (n + 1) n (by omega)

theorem natDigits_length_mono {m n : Nat} (h : m ≤ n) :
    (natDigits m).length ≤ (natDigits n).length := by
  rw [natDigits_length_eq_log, natDigits_length_eq_log]
  exact Nat.succ_le_succ (Nat.log_mono_right h)

theorem natDigits_mem (n : Nat) : ∀ c ∈ natDigits n, c ∈ digitChars :=
  natDigitsAux_mem (n + 1) n

theorem padLeft_length {w : Nat} {d : List Char} (h : d.length ≤ w) :
    (padLeft w d).length = w := by
  simp only [padLeft, List.length_append, List.length_replicate]
  omega

theorem mem_padLeft {w : Nat} {d : List Char} {c : Char}
    (h : c ∈ padLeft w d) : c = ' ' ∨ c ∈ d := by
  rcases List.mem_append.mp h with h1 | h2
  · exact Or.inl (List.eq_of_mem_replicate h1)
  · exact Or.inr h2

theorem stripCR_eq_self {l : List Char} (h : '\r' ∉ l) : stripCR l = l := by
  unfold stripCR
  have hne2 : ¬ l.getLast? = some '\r' := by
    intro h2
    exact h (List.mem_of_mem_getLast? (by simp [h2, Option.mem_def]))
  rw [if_neg hne2]

theorem map_stripCR_id (M : List (List Char)) (h : ∀ l ∈ M, '\r' ∉ l) :
    M.map stripCR = M := by
  induction M with
  | nil => rfl
  | cons l rest ih =>
    simp only [List.map_cons]
    rw [stripCR_eq_self (h l (List.mem_cons_self _ _)),
        ih (fun x hx => h x (List.mem_cons_of_mem _ hx))]

theorem rustLines_eq_splitNl (s : List Char) (hne : s ≠ [])
    (hlast : s.getLast? ≠ some '\n') (hcr : '\r' ∉ s) :
    rustLines s = splitNl s := by
  unfold rustLines
  rw [if_neg hne, if_neg hlast]
  have hsne := splitNl_ne_nil s
  rw [List.getLast?_eq_getLast (splitNl s) hsne]
  dsimp only
  rw [map_stripCR_id _ (fun l hl hc =>
    hcr (mem_of_mem_splitNl s l (List.mem_of_mem_dropLast hl) '\r' hc))]
  exact List.dropLast_append_getLast hsne

theorem numberFrom_length (w : Nat) (L : List (List Char)) :
    ∀ i : Nat, (numberFrom w i L).length = L.length := by
  induction L with
  | nil => intro i; rfl
  | cons l ls ih => intro i; simp only [numberFrom, List.length_cons, ih]

theorem mem_numberFrom_chars (w : Nat) (L : List (List Char)) :
    ∀ (i : Nat) (l2 : List Char), l2 ∈ numberFrom w i L →
      ∀ c ∈ l2, c ∈ digitChars ∨ c = ' ' ∨ ∃ l ∈ L, c ∈ l := by
  induction L with
  | nil => intro i l2 h; simp [numberFrom] at h
  | cons l ls ih =>
    intro i l2 h c hc
    rcases List.mem_cons.mp h with rfl | htail
    · rcases List.mem_append.mp hc with h1 | h2
      · rcases mem_padLeft h1 with h3 | h4
        · exact Or.inr (Or.inl h3)
        · exact Or.inl (natDigits_mem _ c h4)
      · rcases List.mem_cons.mp h2 with rfl | h5
        · exact Or.inr (Or.inl rfl)
        · exact Or.inr (Or.inr ⟨l, List.mem_cons_self _ _, h5⟩)
    · rcases ih (i + 1) l2 htail c hc with h1 | h2 | ⟨l3, hl3, hc3⟩
      · exact Or.inl h1
      · exact Or.inr (Or.inl h2)
      · exact Or.inr (Or.inr ⟨l3, List.mem_cons_of_mem _ hl3, hc3⟩)

theorem mem_numberFrom_ne_nil (w : Nat) (L : List (List Char)) :
    ∀ (i : Nat) (l2 : List Char), l2 ∈ numberFrom w i L → l2 ≠ [] := by
  induction L with
  | nil => intro i l2 h; simp [numberFrom] at h
  | cons l ls ih =>
    intro i l2 h
    rcases List.mem_cons.mp h with rfl | htail
    · simp
    · exact ih (i + 1) l2 htail

theorem numberFrom_map_drop (w : Nat) (L : List (List Char)) :
    ∀ i : Nat, (∀ m, 1 ≤ m → m ≤ i + L.length → (natDigits m).length ≤ w) →
      (numberFrom w i L).map (List.drop (w + 1)) = L := by
  induction L with
  | nil => intro i h; rfl
  | cons l ls ih =>
    intro i h
    simp only [numberFrom, List.map_cons]
    have hd : (natDigits (i + 1)).length ≤ w :=
      h (i + 1) (by omega) (by simp [List.length_cons])
    have hplen : (padLeft w (natDigits (i + 1))).length = w := padLeft_length hd
    have hdrop : List.drop (w + 1) (padLeft w (natDigits (i + 1)) ++ ' ' :: l) = l := by
      have hw1 : w + 1 = (padLeft w (natDigits (i + 1))).length + 1 := by rw [hplen]
      rw [hw1, List.drop_append]
      rfl
    rw [hdrop, ih (i + 1) (fun m h1 h2 => h m h1 (by simp [List.length_cons] at h2 ⊢; omega))]

/-- Claim C6 (amended): for non-empty content that does not end with a
newline and contains no carriage return, the numbering transform
prefixes each line with a right-aligned one-based index of width equal
to the decimal-digit width of the line count (each prefix column is
exactly that wide), the numbered output has as many lines as the input,
and dropping the fixed-width column plus the single separator from
every numbered line reproduces the content exactly.  (Content with a
trailing newline is NOT reproduced -- the join of the numbered lines
loses the terminator, see the counterexample.) -/
theorem c6_numbering_roundtrip :
    ∀ (s : List Char), s ≠ [] → s.getLast? ≠ some '\n' → '\r' ∉ s →
      strip_line_nbs (add_line_nbs s) = s
      ∧ (rustLines (add_line_nbs s)).length = (rustLines s).length
      ∧ (∀ i, i < (rustLines s).length →
          (padLeft (numWidth (rustLines s).length) (natDigits (i + 1))).length
            = numWidth (rustLines s).length) := by
  intro s hne hlast hcr
  have hsplit : rustLines s = splitNl s := rustLines_eq_splitNl s hne hlast hcr
  have hLne : splitNl s ≠ [] := splitNl_ne_nil s
  have hLlen1 : 1 ≤ (splitNl s).length := by
    cases h : splitNl s with
    | nil => exact absurd h hLne
    | cons a b => simp
  obtain ⟨w, hw⟩ : ∃ w, numWidth (splitNl s).length = w := ⟨_, rfl⟩
  have hdigbound : ∀ m, 1 ≤ m → m ≤ (splitNl s).length →
      (natDigits m).length ≤ w := by
    intro m h1 h2
    rw [← hw]
    unfold numWidth
    rw [if_neg (by omega)]
    exact natDigits_length_mono h2
  have hadd : add_line_nbs s = joinNl (numberFrom w 0 (splitNl s)) := by
    unfold add_line_nbs
    rw [hsplit, hw]
  have hNne : numberFrom w 0 (splitNl s) ≠ [] := by
    intro h0
    have hl0 := numberFrom_length w (splitNl s) 0
    rw [h0] at hl0
    simp at hl0
    omega
  have hNnil : ∀ l2 ∈ numberFrom w 0 (splitNl s), l2 ≠ [] :=
    fun l2 h2 => mem_numberFrom_ne_nil w (splitNl s) 0 l2 h2
  have hNnl : ∀ l2 ∈ numberFrom w 0 (splitNl s), '\n' ∉ l2 := by
    intro l2 h2 hmem
    rcases mem_numberFrom_chars w (splitNl s) 0 l2 h2 '\n' hmem with h3 | h3 | ⟨l3, hl3, hc3⟩
    · exact (digitChars_ne_nl_cr h3).1 rfl
    · exact absurd h3 (by decide)
    · exact no_nl_of_mem_splitNl s l3 hl3 hc3
  have hNcr : ∀ l2 ∈ numberFrom w 0 (splitNl s), '\r' ∉ l2 := by
    intro l2 h2 hmem
    rcases mem_numberFrom_chars w (splitNl s) 0 l2 h2 '\r' hmem with h3 | h3 | ⟨l3, hl3, hc3⟩
    · exact (digitChars_ne_nl_cr h3).2 rfl
    · exact absurd h3 (by decide)
    · exact hcr (mem_of_mem_splitNl s l3 hl3 '\r' hc3)
  have htne : joinNl (numberFrom w 0 (splitNl s)) ≠ [] :=
    joinNl_ne_nil _ hNne hNnil
  have htlast : (joinNl (numberFrom w 0 (splitNl s))).getLast? ≠ some '\n' :=
    joinNl_getLast?_ne_nl _ hNne hNnil hNnl
  have htcr : '\r' ∉ joinNl (numberFrom w 0 (splitNl s)) := by
    intro hmem
    rcases mem_joinNl _ '\r' hmem with h3 | ⟨l3, hl3, hc3⟩
    · exact absurd h3 (by decide)
    · exact hNcr l3 hl3 hc3
  have hsplitT : rustLines (add_line_nbs s) = numberFrom w 0 (splitNl s) := by
    rw [hadd, rustLines_eq_splitNl _ htne htlast htcr]
    exact splitNl_joinNl _ hNne hNnl
  refine ⟨?_, ?_, ?_⟩
  · unfold strip_line_nbs
    rw [hsplitT, numberFrom_length, hw]
    rw [numberFrom_map_drop w (splitNl s) 0 (fun m h1 h2 => hdigbound m h1 (by omega))]
    exact joinNl_splitNl s
  · rw [hsplitT, numberFrom_length, hsplit]
  · intro i hi
    rw [hsplit] at hi ⊢
    rw [hw]
    exact padLeft_length (hdigbound (i + 1) (by omega) (by omega))

/-- Witness for claim C6 at the concrete two-line content `ab` newline
`cd`. -/
theorem c6_numbering_roundtrip_witness :
    strip_line_nbs (add_line_nbs "ab\ncd".data) = "ab\ncd".data
    ∧ (rustLines (add_line_nbs "ab\ncd".data)).length
        = (rustLines "ab\ncd".data).length :=
  ⟨(c6_numbering_roundtrip "ab\ncd".data (by decide) (by decide) (by decide)).1,
   (c6_numbering_roundtrip "ab\ncd".data (by decide) (by decide) (by decide)).2.1⟩
